import Mathlib

/-!
Verification of the `gosh` HTTP CLI against its specification.

Strings are modelled as `List Char`; Go `map[string]string` values are
modelled as association lists `List (List Char × List Char)` whose lookup
returns the first matching entry.  Each definition below is a direct
translation of a function from the repository sources; the file comments
name the Go source of every definition.
-/

set_option autoImplicit false

namespace Gosh

/-- Convert a Lean string literal to the `List Char` representation. -/
def lchars (s : String) : List Char :=
  s.toList

/-- Go map lookup (`m[k]`, second result `ok`): first matching entry. -/
def mlookup (k : List Char) : List (List Char × List Char) → Option (List Char)
  | [] => none
  | (k', v) :: rest => if k' = k then some v else mlookup k rest

/-- Go map assignment `m[k] = v`: replace the existing entry or append. -/
def mapInsert (k v : List Char) : List (List Char × List Char) → List (List Char × List Char)
  | [] => [(k, v)]
  | (k', v') :: rest => if k' = k then (k, v) :: rest else (k', v') :: mapInsert k v rest

/-- Go `strings.HasPrefix`. -/
def hasPre : List Char → List Char → Bool
  | [], _ => true
  | _ :: _, [] => false
  | a :: ps, b :: ss => a = b && hasPre ps ss

/-- Go `strings.TrimPrefix`. -/
def trimPre (p s : List Char) : List Char :=
  if hasPre p s then s.drop p.length else s

/-- Split a string at the first occurrence of (non-empty) `sep`:
returns the part before and the part after, or `none` when `sep` does not
occur.  This models Go `strings.SplitN(s, sep, 2)` (which returns the
whole string when `sep` is absent) together with `strings.Contains`. -/
def splitOnFirst (sep : List Char) : List Char → Option (List Char × List Char)
  | [] => none
  | c :: rest =>
    if hasPre sep (c :: rest) then some ([], (c :: rest).drop sep.length)
    else
      match splitOnFirst sep rest with
      | some (pre, post) => some (c :: pre, post)
      | none => none

/-- Go `strings.Contains` for a non-empty `sep`. -/
def containsSub (sep s : List Char) : Bool :=
  (splitOnFirst sep s).isSome

/-- ASCII whitespace test used by `trimSpace` (Go `strings.TrimSpace`;
the inputs of this code base only ever carry ASCII whitespace). -/
def isSpaceChar (c : Char) : Bool :=
  c = ' ' || c = '\t' || c = '\n' || c = '\r'

/-- Go `strings.TrimSpace` (ASCII fragment). -/
def trimSpace (s : List Char) : List Char :=
  ((s.dropWhile isSpaceChar).reverse.dropWhile isSpaceChar).reverse

/-- Fuel-indexed core of Go `strings.ReplaceAll`: scan left to right,
replace every non-overlapping occurrence of `old`, and continue after the
replacement (the replacement text is not rescanned).  The fuel is always
instantiated with the length of the scanned string, so the `0` case is
never reached on the arguments `replaceAll` passes. -/
def replaceAllF : Nat → List Char → List Char → List Char → List Char
  | 0, _, _, s => s
  | _ + 1, _, _, [] => []
  | fuel + 1, old, new, c :: rest =>
    if old ≠ [] ∧ hasPre old (c :: rest) then
      new ++ replaceAllF fuel old new ((c :: rest).drop old.length)
    else
      c :: replaceAllF fuel old new rest

/-- Go `strings.ReplaceAll s old new` for the non-empty patterns
(`"${NAME}"`, `"{name}"`) this repository uses. -/
def replaceAll (old new s : List Char) : List Char :=
  replaceAllF s.length old new s

/-- The `seen` loop of `Template.ExtractPathVars` / `ExtractEnvVars`
(template.go): keep the first occurrence of every name. -/
def dedupFirst (seen : List (List Char)) : List (List Char) → List (List Char)
  | [] => []
  | v :: vs => if v ∈ seen then dedupFirst seen vs else v :: dedupFirst (v :: seen) vs

/-- All submatches of the Go regular expression `\{([^}]+)\}` in
leftmost, non-overlapping order (`regexp.FindAllStringSubmatch`).
The regex is executed operationally: outside a brace, a `{` opens a
candidate; inside, every non-`}` character (including further `{` and
`$`) is part of the candidate name; a `}` closes it, and the candidate
matches exactly when the name is non-empty.  `st = some acc` is the
in-candidate state with `acc` the name read so far. -/
def scanPath : Option (List Char) → List Char → List (List Char)
  | _, [] => []
  | some acc, c :: rest =>
    if c = '}' then
      if acc = [] then scanPath none rest else acc :: scanPath none rest
    else scanPath (some (acc ++ [c])) rest
  | none, c :: rest =>
    if c = '{' then scanPath (some []) rest else scanPath none rest

/-- All submatches of the Go regular expression `\$\{([^}]+)\}` in
leftmost, non-overlapping order, executed operationally like `scanPath`:
a candidate opens only at an adjacent `$` `{` pair. -/
def scanEnv : Option (List Char) → List Char → List (List Char)
  | _, [] => []
  | some acc, c :: rest =>
    if c = '}' then
      if acc = [] then scanEnv none rest else acc :: scanEnv none rest
    else scanEnv (some (acc ++ [c])) rest
  | none, '$' :: '{' :: rest' => scanEnv (some []) rest'
  | none, _ :: rest => scanEnv none rest

/-- Decidable equality of `Except` results, for concrete evaluations. -/
instance exceptDecEq {e a : Type} [DecidableEq e] [DecidableEq a] :
    DecidableEq (Except e a) := fun x y =>
  match x, y with
  | .ok u, .ok v => if h : u = v then .isTrue (by rw [h]) else .isFalse (by intro hc; cases hc; exact h rfl)
  | .error u, .error v => if h : u = v then .isTrue (by rw [h]) else .isFalse (by intro hc; cases hc; exact h rfl)
  | .ok _, .error _ => .isFalse (by intro hc; cases hc)
  | .error _, .ok _ => .isFalse (by intro hc; cases hc)

/-- The templating error values of template.go (`fmt.Errorf` results). -/
inductive ResolveError where
  | envVarNotFound (name : List Char)
  | missingTemplateVars (names : List (List Char))
deriving DecidableEq

/-- `Template` (template.go): a text with path-variable and
env-variable mappings. -/
structure Template where
  text : List Char
  pathVars : List (List Char × List Char)
  envVars : List (List Char × List Char)

/-- `Template.ExtractPathVars` (template.go): all `\{([^}]+)\}`
submatches of `text`, deduplicated keeping first occurrences. -/
def Template.ExtractPathVars (t : Template) : List (List Char) :=
  dedupFirst [] (scanPath none t.text)

/-- `Template.ExtractEnvVars` (template.go): all `\$\{([^}]+)\}`
submatches of `text`, deduplicated keeping first occurrences. -/
def Template.ExtractEnvVars (t : Template) : List (List Char) :=
  dedupFirst [] (scanEnv none t.text)

/-- The environment-substitution loop of `Template.Resolve`: for each
extracted name look it up, failing fast on the first missing one,
otherwise `strings.ReplaceAll` its `${name}` placeholder. -/
def substEnvList (env : List (List Char × List Char)) :
    List (List Char) → List Char → Except ResolveError (List Char)
  | [], result => .ok result
  | v :: vs, result =>
    match mlookup v env with
    | none => .error (.envVarNotFound v)
    | some val => substEnvList env vs (replaceAll ('$' :: '{' :: (v ++ ['}'])) val result)

/-- `Template.Resolve` (template.go): substitute env variables first
(fail-fast), then check all extracted path variables (batched error),
then `strings.ReplaceAll` every `{name}` placeholder. -/
def Template.Resolve (t : Template) : Except ResolveError (List Char) :=
  match substEnvList t.envVars t.ExtractEnvVars t.text with
  | .error e => .error e
  | .ok result =>
    let pathVars := t.ExtractPathVars
    let unresolved := pathVars.filter fun v => (mlookup v t.pathVars).isNone
    if unresolved ≠ [] then
      .error (.missingTemplateVars unresolved)
    else
      .ok (pathVars.foldl
        (fun res v => replaceAll ('{' :: (v ++ ['}'])) ((mlookup v t.pathVars).getD []) res)
        result)

/-! ## CLI parser (internal/cli/parser.go, internal/cli/types.go) -/

/-- Go `strings.ToUpper` (the ASCII fragment; CLI methods are ASCII). -/
def toUpperStr (s : List Char) : List Char :=
  s.map Char.toUpper

/-- Go `strings.ToLower` (the ASCII fragment). -/
def toLowerStr (s : List Char) : List Char :=
  s.map Char.toLower

/-- `ParsedRequest` (types.go). -/
structure ParsedRequest where
  Method : List Char
  URL : List Char
  Headers : List (List Char × List Char)
  QueryParams : List (List Char × List Char)
  Body : List Char
  PathParams : List (List Char × List Char)
  HasStdinBody : Bool
  Save : List Char
  Dry : Bool
  Info : Bool
  NoInteractive : Bool
  Env : List Char
  Format : List Char
  Auth : List Char
deriving DecidableEq

/-- `RecallOptions` (types.go). -/
structure RecallOptions where
  Name : List Char
  ParameterOverride : List (List Char × List Char)
  Headers : List (List Char × List Char)
  Env : List Char
deriving DecidableEq

/-- The parse errors of parser.go (`fmt.Errorf` results). -/
inductive ParseError where
  | methodAndURLRequired
  | invalidMethod (m : List Char)
  | needsValue (flag : List Char)
  | invalidHeaderFormat (h : List Char)
  | unexpectedArgument (a : List Char)
  | recallRequiresName
deriving DecidableEq

/-- `Parser` (parser.go): holds the raw argument vector. -/
structure Parser where
  Args : List (List Char)

/-- The `validMethods` map of `parseRequest`. -/
def validMethod (m : List Char) : Bool :=
  [lchars ("GET"), lchars ("POST"), lchars ("PUT"), lchars ("DELETE"), lchars ("PATCH"),
    lchars ("HEAD"), lchars ("OPTIONS"), lchars ("TRACE"), lchars ("CONNECT")].contains m

/-- Go `strings.SplitN s sep 2` restricted to its two components, with
the convention that a guard (`strings.Contains`) has established that
`sep` occurs, so the default is never reached in translated code. -/
def goSplit2 (sep s : List Char) : List Char × List Char :=
  (splitOnFirst sep s).getD (s, [])

/-- The shared header-value parsing of parser.go: split on the first
`:`; if there is none, fall back to the first `=`; trim both sides. -/
def parseHeaderVal (headerVal : List Char) : Option (List Char × List Char) :=
  match splitOnFirst (lchars (":")) headerVal with
  | some (k, v) => some (trimSpace k, trimSpace v)
  | none =>
    match splitOnFirst (lchars ("=")) headerVal with
    | some (k, v) => some (trimSpace k, trimSpace v)
    | none => none

/-- The initial `ParsedRequest` literal of `parseRequest`. -/
def initRequest (method url : List Char) : ParsedRequest :=
  { Method := method, URL := url, Headers := [], QueryParams := [], Body := [],
    PathParams := [], HasStdinBody := false, Save := [], Dry := false, Info := false,
    NoInteractive := false, Env := [], Format := [], Auth := [] }

/-- The argument loop of `parseRequest` (parser.go lines 72–165), one
switch case per branch, in source order. -/
def parseReqArgs (req : ParsedRequest) : List (List Char) → Except ParseError ParsedRequest
  | [] => .ok req
  | arg :: rest =>
    if arg = lchars ("--save") then
      match rest with
      | [] => .error (.needsValue (lchars ("--save")))
      | v :: rest' => parseReqArgs { req with Save := v } rest'
    else if arg = lchars ("--dry") then parseReqArgs { req with Dry := true } rest
    else if arg = lchars ("--info") then parseReqArgs { req with Info := true } rest
    else if arg = lchars ("--no-interactive") then
      parseReqArgs { req with NoInteractive := true } rest
    else if hasPre (lchars ("--env=")) arg then
      parseReqArgs { req with Env := trimPre (lchars ("--env=")) arg } rest
    else if arg = lchars ("--env") then
      match rest with
      | [] => .error (.needsValue (lchars ("--env")))
      | v :: rest' => parseReqArgs { req with Env := v } rest'
    else if hasPre (lchars ("--format=")) arg then
      parseReqArgs { req with Format := trimPre (lchars ("--format=")) arg } rest
    else if arg = lchars ("--format") then
      match rest with
      | [] => .error (.needsValue (lchars ("--format")))
      | v :: rest' => parseReqArgs { req with Format := v } rest'
    else if hasPre (lchars ("--auth=")) arg then
      parseReqArgs { req with Auth := trimPre (lchars ("--auth=")) arg } rest
    else if arg = lchars ("--auth") then
      match rest with
      | [] => .error (.needsValue (lchars ("--auth")))
      | v :: rest' => parseReqArgs { req with Auth := v } rest'
    else if hasPre (lchars ("-H")) arg then
      if arg = lchars ("-H") then
        match rest with
        | [] => .error (.needsValue (lchars ("-H")))
        | v :: rest' =>
          match parseHeaderVal v with
          | some kv => parseReqArgs { req with Headers := mapInsert kv.1 kv.2 req.Headers } rest'
          | none => .error (.invalidHeaderFormat v)
      else
        match parseHeaderVal (trimPre (lchars ("-H")) arg) with
        | some kv => parseReqArgs { req with Headers := mapInsert kv.1 kv.2 req.Headers } rest
        | none => .error (.invalidHeaderFormat (trimPre (lchars ("-H")) arg))
    else if hasPre (lchars ("-d")) arg then
      if arg = lchars ("-d") then
        match rest with
        | [] => .error (.needsValue (lchars ("-d")))
        | v :: rest' => parseReqArgs { req with Body := v } rest'
      else parseReqArgs { req with Body := trimPre (lchars ("-d")) arg } rest
    else if containsSub (lchars ("==")) arg then
      let parts := goSplit2 (lchars ("==")) arg
      parseReqArgs { req with QueryParams := mapInsert parts.1 parts.2 req.QueryParams } rest
    else if containsSub (lchars ("=")) arg ∧ ¬ hasPre (lchars ("-")) arg then
      let parts := goSplit2 (lchars ("=")) arg
      parseReqArgs { req with PathParams := mapInsert parts.1 parts.2 req.PathParams } rest
    else
      .error (.unexpectedArgument arg)

/-- `Parser.parseRequest` (parser.go): method and URL positionals,
method validation, then the argument loop. -/
def Parser.parseRequest (p : Parser) : Except ParseError ParsedRequest :=
  match p.Args with
  | a0 :: a1 :: rest =>
    let method := toUpperStr a0
    if validMethod method then parseReqArgs (initRequest method a1) rest
    else .error (.invalidMethod method)
  | _ => .error .methodAndURLRequired

/-- The argument loop of `parseRecall` (parser.go lines 180–219), in
source order; an argument matching no case and containing no `=` is
silently skipped. -/
def parseRecallArgs (opts : RecallOptions) : List (List Char) → Except ParseError RecallOptions
  | [] => .ok opts
  | arg :: rest =>
    if hasPre (lchars ("-H")) arg then
      if arg = lchars ("-H") then
        match rest with
        | [] => .error (.needsValue (lchars ("-H")))
        | v :: rest' =>
          match parseHeaderVal v with
          | some kv => parseRecallArgs { opts with Headers := mapInsert kv.1 kv.2 opts.Headers } rest'
          | none => .error (.invalidHeaderFormat v)
      else
        match parseHeaderVal (trimPre (lchars ("-H")) arg) with
        | some kv => parseRecallArgs { opts with Headers := mapInsert kv.1 kv.2 opts.Headers } rest
        | none => .error (.invalidHeaderFormat (trimPre (lchars ("-H")) arg))
    else if hasPre (lchars ("--env=")) arg then
      parseRecallArgs { opts with Env := trimPre (lchars ("--env=")) arg } rest
    else if arg = lchars ("--env") then
      match rest with
      | [] => .error (.needsValue (lchars ("--env")))
      | v :: rest' => parseRecallArgs { opts with Env := v } rest'
    else if containsSub (lchars ("=")) arg then
      let parts := goSplit2 (lchars ("=")) arg
      parseRecallArgs { opts with ParameterOverride := mapInsert parts.1 parts.2 opts.ParameterOverride } rest
    else
      parseRecallArgs opts rest

/-- `Parser.parseRecall` (parser.go): saved-call name positional, then
the recall argument loop. -/
def Parser.parseRecall (p : Parser) : Except ParseError RecallOptions :=
  match p.Args with
  | _ :: name :: rest =>
    parseRecallArgs { Name := name, ParameterOverride := [], Headers := [], Env := [] } rest
  | _ => .error .recallRequiresName

/-! ## Authentication presets (internal/auth/types.go, part of src/unnamed)

`http.Header` is a multi-valued map; `Set` replaces the value list of a
key with a singleton, `Add` appends.  Header-key MIME canonicalisation is
not modelled: every key this development touches (`Authorization`) is
already in canonical form. -/

/-- The headers of an `http.Request`, as far as this code mutates them. -/
abbrev HeaderMap : Type := List (List Char × List (List Char))

/-- `http.Header.Set`. -/
def hSet (k v : List Char) : HeaderMap → HeaderMap
  | [] => [(k, [v])]
  | (k', vs) :: rest => if k' = k then (k, [v]) :: rest else (k', vs) :: hSet k v rest

/-- `http.Header.Add`. -/
def hAdd (k v : List Char) : HeaderMap → HeaderMap
  | [] => [(k, [v])]
  | (k', vs) :: rest => if k' = k then (k', vs ++ [v]) :: rest else (k', vs) :: hAdd k v rest

/-- `http.Request`, restricted to the parts `Builder.Build` and
`AuthPreset.Apply` construct or mutate.  `body = none` is a `nil` body
reader; `body = some s` is a `strings.NewReader` over `s`. -/
structure HttpRequest where
  method : List Char
  url : List Char
  headers : HeaderMap
  body : Option (List Char)
deriving DecidableEq

/-- `AuthPreset` (auth/types.go).  The Go field `Prefix` is named `Pfx`
here (the Go name is reserved in this development); `Headers` is the
auxiliary list of raw `"Key: Value"` strings for custom auth. -/
structure AuthPreset where
  Name : List Char
  «Type» : List Char
  Username : List Char
  Password : List Char
  Token : List Char
  Header : List Char
  Pfx : List Char
  Value : List Char
  Headers : List (List Char)
deriving DecidableEq

/-- The auth errors of auth/types.go (`fmt.Errorf` results). -/
inductive AuthError where
  | unknownAuthType (t : List Char)
  | basicRequiresUsername
  | bearerRequiresToken
  | customRequiresHeader
deriving DecidableEq

/-- UTF-8 encoding of one character (Go `[]byte(string)`), as byte
values. -/
def utf8Bytes (c : Char) : List Nat :=
  let n := c.toNat
  if n < 0x80 then [n]
  else if n < 0x800 then [0xC0 + n / 0x40, 0x80 + n % 0x40]
  else if n < 0x10000 then [0xE0 + n / 0x1000, 0x80 + n / 0x40 % 0x40, 0x80 + n % 0x40]
  else [0xF0 + n / 0x40000, 0x80 + n / 0x1000 % 0x40, 0x80 + n / 0x40 % 0x40, 0x80 + n % 0x40]

/-- Go `[]byte(s)`: UTF-8 bytes of a string. -/
def strBytes : List Char → List Nat
  | [] => []
  | c :: rest => utf8Bytes c ++ strBytes rest

/-- The standard base64 alphabet (Go `encoding/base64.StdEncoding`). -/
def b64Alpha : List Char :=
  (("ABCDEFGHIJKLMNOPQRSTUVWXYZabcdefghijklmnopqrstuvwxyz0123456789+/").toList)

/-- One base64 digit. -/
def b64Char (n : Nat) : Char :=
  b64Alpha.getD n 'A'

/-- Go `base64.StdEncoding.EncodeToString`: 3-byte groups to 4 digits,
with `=` padding for a 1- or 2-byte tail. -/
def base64Encode : List Nat → List Char
  | [] => []
  | [b1] => [b64Char (b1 / 4), b64Char (b1 % 4 * 16), '=', '=']
  | [b1, b2] => [b64Char (b1 / 4), b64Char (b1 % 4 * 16 + b2 / 16), b64Char (b2 % 16 * 4), '=']
  | b1 :: b2 :: b3 :: rest =>
    b64Char (b1 / 4) :: b64Char (b1 % 4 * 16 + b2 / 16) ::
      b64Char (b2 % 16 * 4 + b3 / 64) :: b64Char (b3 % 64) :: base64Encode rest

/-- `AuthPreset.applyBasic` (auth/types.go): requires a username,
base64-encodes `username:password`, sets `Authorization: Basic <enc>`. -/
def AuthPreset.applyBasic (p : AuthPreset) (req : HttpRequest) : Except AuthError HttpRequest :=
  if p.Username = [] then .error .basicRequiresUsername
  else
    let enc := base64Encode (strBytes (p.Username ++ ':' :: p.Password))
    .ok { req with headers := hSet (lchars ("Authorization")) (lchars ("Basic ") ++ enc) req.headers }

/-- `AuthPreset.applyBearer` (auth/types.go): requires a token, sets
`Authorization: Bearer <token>`. -/
def AuthPreset.applyBearer (p : AuthPreset) (req : HttpRequest) : Except AuthError HttpRequest :=
  if p.Token = [] then .error .bearerRequiresToken
  else
    .ok { req with headers := hSet (lchars ("Authorization")) (lchars ("Bearer ") ++ p.Token) req.headers }

/-- The loop over the auxiliary raw header lines of custom auth:
`strings.SplitN(h, ":", 2)`, skipping entries with no colon. -/
def addRawHeaders : List (List Char) → HeaderMap → HeaderMap
  | [], hs => hs
  | h :: rest, hs =>
    match splitOnFirst (lchars (":")) h with
    | some kv => addRawHeaders rest (hAdd (trimSpace kv.1) (trimSpace kv.2) hs)
    | none => addRawHeaders rest hs

/-- `AuthPreset.applyCustom` (auth/types.go): requires a header name,
sets `<header>: <prefix><value>`, then adds the auxiliary raw headers. -/
def AuthPreset.applyCustom (p : AuthPreset) (req : HttpRequest) : Except AuthError HttpRequest :=
  if p.Header = [] then .error .customRequiresHeader
  else
    let headerValue := if p.Pfx ≠ [] then p.Pfx ++ p.Value else p.Value
    .ok { req with headers := addRawHeaders p.Headers (hSet p.Header headerValue req.headers) }

/-- `AuthPreset.Apply` (auth/types.go): dispatch on
`strings.ToLower(p.Type)`; an unknown type is an error naming the
(original) type. -/
def AuthPreset.Apply (p : AuthPreset) (req : HttpRequest) : Except AuthError HttpRequest :=
  if toLowerStr p.Type = lchars ("basic") then p.applyBasic req
  else if toLowerStr p.Type = lchars ("bearer") then p.applyBearer req
  else if toLowerStr p.Type = lchars ("custom") then p.applyCustom req
  else .error (.unknownAuthType p.Type)

/-! ## Request builder (internal/request/builder.go, types.go) -/

/-- `Request` (request/types.go); `Timeout` is omitted (`Build` never
reads it) and `Auth` is the optional preset pointer. -/
structure Request where
  Method : List Char
  URL : List Char
  Headers : List (List Char × List Char)
  QueryParams : List (List Char × List Char)
  Body : List Char
  Auth : Option AuthPreset

/-- The build errors of builder.go. -/
inductive BuildError where
  | urlParseError
  | authError (e : AuthError)
deriving DecidableEq

/-- `Builder` (builder.go). -/
structure Builder where
  req : Request

/-- `Builder.Build` (builder.go).  The `net/url` steps — `url.Parse`,
the query-parameter merge into `u.Query()` and `u.String()` — are
external library behaviour; they are abstracted as the `urlResolve`
parameter, which receives the raw URL and the query-parameter map and
yields the final URL string, or `none` for a parse failure.  Everything
after those steps follows builder.go line by line: a body reader is
created only for a non-empty body string, headers are `Set` one by one,
and an auth preset, when present, is applied last. -/
def Builder.Build
    (urlResolve : List Char → List (List Char × List Char) → Option (List Char))
    (b : Builder) : Except BuildError HttpRequest :=
  match urlResolve b.req.URL b.req.QueryParams with
  | none => .error .urlParseError
  | some ustr =>
    let bodyReader : Option (List Char) := if b.req.Body ≠ [] then some b.req.Body else none
    let httpReq : HttpRequest := { method := b.req.Method, url := ustr, headers := [], body := bodyReader }
    let withHeaders := b.req.Headers.foldl (fun r kv => { r with headers := hSet kv.1 kv.2 r.headers }) httpReq
    match b.req.Auth with
    | none => .ok withHeaders
    | some p =>
      match p.Apply withHeaders with
      | .ok r => .ok r
      | .error e => .error (.authError e)

/-! ## Orchestrator environment substitution (internal/app, part of
src/unnamed: `App.substituteEnvVars`) -/

/-- The workspace data `substituteEnvVars` reads (config.Workspace,
restricted to the `.env` mapping). -/
structure Workspace where
  Env : List (List Char × List Char)

/-- `App` (app.go), restricted to the workspace. -/
structure App where
  workspace : Workspace

/-- Operational reading of
`regexp.ReplaceAllStringFunc` over `\$\{([^}]+)\}` with the callback of
`App.substituteEnvVars`: text outside matches is copied verbatim; a
match `${name}` becomes the workspace value of `name` when present and
is kept verbatim otherwise.  `st = some acc` is the in-candidate state
after an adjacent `$` `{` pair, `acc` the candidate name so far; a
candidate that reaches the end of the input without a closing `}` never
was a match, so its characters are emitted verbatim. -/
def substEnvScan (env : List (List Char × List Char)) :
    Option (List Char) → List Char → List Char
  | none, [] => []
  | some acc, [] => '$' :: '{' :: acc
  | some acc, c :: rest =>
    if c = '}' then
      if acc = [] then '$' :: '{' :: '}' :: substEnvScan env none rest
      else
        (match mlookup acc env with
          | some v => v
          | none => '$' :: '{' :: (acc ++ ['}'])) ++ substEnvScan env none rest
    else substEnvScan env (some (acc ++ [c])) rest
  | none, '$' :: '{' :: rest' => substEnvScan env (some []) rest'
  | none, c :: rest => c :: substEnvScan env none rest

/-- `App.substituteEnvVars` (app.go): substitute `${NAME}` occurrences
from the workspace env, leaving unknown names in place; total, never an
error. -/
def App.substituteEnvVars (a : App) (text : List Char) : List Char :=
  substEnvScan a.workspace.Env none text

/-! ## Syntactic models of template texts

To state the universally-quantified substitution properties, template
texts are generated from token lists: literal characters and placeholder
spans.  `render…` maps a token list to the text it denotes; the `…Ok`
predicates carve out exactly the texts the corresponding spec sentence
speaks about. -/

/-- A character of a template text containing only `{name}` tokens:
either a literal character or a `{name}` span. -/
inductive PathTok where
  | lit (c : Char)
  | pvar (n : List Char)

/-- The text of one `PathTok`. -/
def pathTokStr : PathTok → List Char
  | .lit c => [c]
  | .pvar n => '{' :: (n ++ ['}'])

/-- The text denoted by a `PathTok` list. -/
def renderPath : List PathTok → List Char
  | [] => []
  | tk :: ts => pathTokStr tk ++ renderPath ts

/-- No `{` or `}` characters. -/
def braceFree (s : List Char) : Bool :=
  s.all fun c => c ≠ '{' && c ≠ '}'

/-- Well-formedness of a `{name}`-only template: literal characters are
not braces, and span names are non-empty and brace-free. -/
def pathToksOk : List PathTok → Bool
  | [] => true
  | .lit c :: ts => (c ≠ '{' && c ≠ '}') && pathToksOk ts
  | .pvar n :: ts => (!n.isEmpty && braceFree n) && pathToksOk ts

/-- The placeholder names of a `PathTok` list, in textual order. -/
def varNames : List PathTok → List (List Char)
  | [] => []
  | .lit _ :: ts => varNames ts
  | .pvar n :: ts => n :: varNames ts

/-- Replace every `{n}` span by the literal characters of `v`. -/
def substTok (n v : List Char) : List PathTok → List PathTok
  | [] => []
  | .lit c :: ts => .lit c :: substTok n v ts
  | .pvar m :: ts =>
    if m = n then v.map .lit ++ substTok n v ts else .pvar m :: substTok n v ts

/-- The path-variable substitution loop of `Template.Resolve`, as a
standalone fold (`result` threaded through `strings.ReplaceAll`). -/
def pathFold (m : List (List Char × List Char)) (names : List (List Char))
    (res : List Char) : List Char :=
  names.foldl (fun r v => replaceAll ('{' :: (v ++ ['}'])) ((mlookup v m).getD []) r) res

/-- `substTok` folded over a name list, mirroring `pathFold` in token
land. -/
def tokFold (m : List (List Char × List Char)) (names : List (List Char))
    (toks : List PathTok) : List PathTok :=
  names.foldl (fun ts v => substTok v ((mlookup v m).getD []) ts) toks

/-- A character of a general text with `${NAME}` spans: either a
literal character or a `${NAME}` span. -/
inductive EnvTok where
  | lit (c : Char)
  | evar (n : List Char)

/-- The text of one `EnvTok`. -/
def envTokStr : EnvTok → List Char
  | .lit c => [c]
  | .evar n => '$' :: '{' :: (n ++ ['}'])

/-- The text denoted by an `EnvTok` list. -/
def renderEnv : List EnvTok → List Char
  | [] => []
  | tk :: ts => envTokStr tk ++ renderEnv ts

/-- Well-formedness of an `EnvTok` list: span names are non-empty and
`}`-free, and no literal `$` is immediately followed by a literal `{`
(which would itself open a `${…}` span in the rendered text). -/
def envToksOk : List EnvTok → Bool
  | [] => true
  | .lit c :: ts =>
    (match ts with
      | .lit c2 :: _ => !(c = '$' && c2 = '{')
      | _ => true) && envToksOk ts
  | .evar n :: ts => (!n.isEmpty && n.all (fun c => c ≠ '}')) && envToksOk ts

/-- The value `App.substituteEnvVars` is specified to produce for one
token: literals verbatim; a span becomes its workspace value when the
name is bound and stays verbatim otherwise. -/
def envTokSubst (env : List (List Char × List Char)) : EnvTok → List Char
  | .lit c => [c]
  | .evar n =>
    match mlookup n env with
    | some v => v
    | none => '$' :: '{' :: (n ++ ['}'])

/-- `envTokSubst` over a whole token list. -/
def envSubstSpec (env : List (List Char × List Char)) : List EnvTok → List Char
  | [] => []
  | tk :: ts => envTokSubst env tk ++ envSubstSpec env ts

/-- A piece of an *arbitrary* text as the `\$\{([^}]+)\}` scan sees it:
one character lying outside every match, or one whole matched `${n}`
span. -/
inductive EnvChunk where
  | txt (c : Char)
  | mat (n : List Char)

/-- The text of one chunk. -/
def chunkStr : EnvChunk → List Char
  | .txt c => [c]
  | .mat n => '$' :: '{' :: (n ++ ['}'])

/-- The text a chunk list denotes. -/
def renderChunks : List EnvChunk → List Char
  | [] => []
  | ck :: cks => chunkStr ck ++ renderChunks cks

/-- Spec-side decomposition of an arbitrary text (following the claim's
words, not the code): split it into its `${NAME}` occurrences —
leftmost, non-overlapping, name non-empty and `}`-free, exactly the
matches of `\$\{([^}]+)\}` — and all remaining characters, kept one by
one.  Same in-candidate state convention as `scanEnv`; a candidate that
is never closed (`${` with no later `}`) or is empty (`${}`) was not a
match, so its characters are plain text. -/
def parseEnvScan : Option (List Char) → List Char → List EnvChunk
  | none, [] => []
  | some acc, [] => ('$' :: '{' :: acc).map .txt
  | some acc, c :: rest =>
    if c = '}' then
      if acc = [] then .txt '$' :: .txt '{' :: .txt '}' :: parseEnvScan none rest
      else .mat acc :: parseEnvScan none rest
    else parseEnvScan (some (acc ++ [c])) rest
  | none, '$' :: '{' :: rest' => parseEnvScan (some []) rest'
  | none, c :: rest => .txt c :: parseEnvScan none rest

/-- What the claim specifies for one chunk of the decomposition: a
matched span becomes its workspace value when its name is bound and
stays verbatim otherwise; any other character is copied unchanged. -/
def chunkSubst (env : List (List Char × List Char)) : EnvChunk → List Char
  | .txt c => [c]
  | .mat n =>
    match mlookup n env with
    | some v => v
    | none => '$' :: '{' :: (n ++ ['}'])

/-- `chunkSubst` over a whole chunk list. -/
def substChunks (env : List (List Char × List Char)) : List EnvChunk → List Char
  | [] => []
  | ck :: cks => chunkSubst env ck ++ substChunks env cks

/-- The names of the matched spans of a chunk list, in textual order. -/
def chunkNames : List EnvChunk → List (List Char)
  | [] => []
  | .txt _ :: cks => chunkNames cks
  | .mat n :: cks => n :: chunkNames cks

/-! ## Helper lemmas -/

theorem hasPre_append (p s : List Char) : hasPre p (p ++ s) = true := by
  induction p with
  | nil => rfl
  | cons a ps ih => simp [hasPre, ih]

theorem replaceAllF_irrel (old new : List Char) :
    ∀ (f₁ f₂ : Nat) (s : List Char), s.length ≤ f₁ → s.length ≤ f₂ →
      replaceAllF f₁ old new s = replaceAllF f₂ old new s := by
  intro f₁
  induction f₁ with
  | zero =>
    intro f₂ s hs₁ _
    have hnil : s = [] := List.eq_nil_of_length_eq_zero (Nat.le_zero.mp hs₁)
    subst hnil
    cases f₂ <;> rfl
  | succ f ih =>
    intro f₂ s hs₁ hs₂
    cases s with
    | nil => cases f₂ <;> rfl
    | cons c rest =>
      cases f₂ with
      | zero => exact absurd hs₂ (by simp)
      | succ f₂' =>
        simp only [replaceAllF]
        by_cases h : old ≠ [] ∧ hasPre old (c :: rest) = true
        · rw [if_pos h, if_pos h]
          have hlen : ((c :: rest).drop old.length).length ≤ rest.length := by
            have hpos : 1 ≤ old.length := by
              cases old with
              | nil => exact absurd rfl h.1
              | cons _ _ => simp
            simp only [List.length_drop, List.length_cons]
            omega
          rw [ih f₂' _ (Nat.le_trans hlen (Nat.lt_succ_iff.mp hs₁))
            (Nat.le_trans hlen (Nat.lt_succ_iff.mp hs₂))]
        · rw [if_neg h, if_neg h]
          rw [ih f₂' rest (Nat.lt_succ_iff.mp hs₁) (Nat.lt_succ_iff.mp hs₂)]

theorem replaceAll_nil (old new : List Char) : replaceAll old new [] = [] :=
  rfl

theorem replaceAll_cons_pos (old new : List Char) (c : Char) (rest : List Char)
    (h1 : old ≠ []) (h2 : hasPre old (c :: rest) = true) :
    replaceAll old new (c :: rest) = new ++ replaceAll old new ((c :: rest).drop old.length) := by
  unfold replaceAll
  simp only [List.length_cons, replaceAllF, if_pos (And.intro h1 h2)]
  have hlen : ((c :: rest).drop old.length).length ≤ rest.length := by
    have hpos : 1 ≤ old.length := by
      cases old with
      | nil => exact absurd rfl h1
      | cons _ _ => simp
    simp only [List.length_drop, List.length_cons]
    omega
  rw [replaceAllF_irrel old new rest.length ((c :: rest).drop old.length).length _ hlen le_rfl]

theorem replaceAll_cons_neg (old new : List Char) (c : Char) (rest : List Char)
    (h : ¬(old ≠ [] ∧ hasPre old (c :: rest) = true)) :
    replaceAll old new (c :: rest) = c :: replaceAll old new rest := by
  unfold replaceAll
  simp only [List.length_cons, replaceAllF, if_neg h]

/-- The flag literals of parser.go, expanded for symbolic-argument
reasoning. -/
theorem lch_save : lchars ("--save") = ['-', '-', 's', 'a', 'v', 'e'] := rfl

theorem lch_saveEq : lchars ("--save=") = ['-', '-', 's', 'a', 'v', 'e', '='] := rfl

theorem lch_dry : lchars ("--dry") = ['-', '-', 'd', 'r', 'y'] := rfl

theorem lch_info : lchars ("--info") = ['-', '-', 'i', 'n', 'f', 'o'] := rfl

theorem lch_noint : lchars ("--no-interactive")
    = ['-', '-', 'n', 'o', '-', 'i', 'n', 't', 'e', 'r', 'a', 'c', 't', 'i', 'v', 'e'] := rfl

theorem lch_envEq : lchars ("--env=") = ['-', '-', 'e', 'n', 'v', '='] := rfl

theorem lch_env : lchars ("--env") = ['-', '-', 'e', 'n', 'v'] := rfl

theorem lch_formatEq : lchars ("--format=") = ['-', '-', 'f', 'o', 'r', 'm', 'a', 't', '='] := rfl

theorem lch_format : lchars ("--format") = ['-', '-', 'f', 'o', 'r', 'm', 'a', 't'] := rfl

theorem lch_authEq : lchars ("--auth=") = ['-', '-', 'a', 'u', 't', 'h', '='] := rfl

theorem lch_auth : lchars ("--auth") = ['-', '-', 'a', 'u', 't', 'h'] := rfl

theorem lch_H : lchars ("-H") = ['-', 'H'] := rfl

theorem lch_d : lchars ("-d") = ['-', 'd'] := rfl

theorem lch_dash : lchars ("-") = ['-'] := rfl

theorem lch_eq1 : lchars ("=") = ['='] := rfl

theorem lch_eq2 : lchars ("==") = ['=', '='] := rfl

/-! ## Claims -/

/-- Claim C1 (code bug).  The claim — matching the repository's own
tests `TestResolveMixed` and `TestResolveEnvVars` — says that a template
whose `${NAME}` names are all in the env-var mapping and whose `{name}`
names outside `${…}` spans are all in the path-var mapping resolves
successfully.  The code disagrees: `Template.ExtractPathVars` runs on
the original text, where the regex `\{([^}]+)\}` also matches the
`{API_BASE}` inside `${API_BASE}`, so `Resolve` demands a *path*-var
entry for `API_BASE` and fails with the batched missing-variables error.
This theorem evaluates the code at the failing input of
`TestResolveMixed` (which asserts success with the fully substituted
URL). -/
theorem claim_C1 :
    Template.Resolve
      { text := lchars ("${API_BASE}/users/{userId}/posts/{postId}"),
        pathVars := [(lchars ("userId"), lchars ("123")), (lchars ("postId"), lchars ("456"))],
        envVars := [(lchars ("API_BASE"), lchars ("https://api.example.com"))] }
    = .error (.missingTemplateVars [lchars ("API_BASE")]) := by
  decide

theorem substEnvList_err (env : List (List Char × List Char)) :
    ∀ (names : List (List Char)) (res : List Char) (n : List Char),
      names.find? (fun v => (mlookup v env).isNone) = some n →
      substEnvList env names res = .error (.envVarNotFound n) := by
  intro names
  induction names with
  | nil => intro res n h; simp [List.find?] at h
  | cons v vs ih =>
    intro res n h
    cases hm : mlookup v env with
    | none =>
      have hv : v = n := by
        simp [List.find?, hm] at h
        exact h
      subst hv
      simp [substEnvList, hm]
    | some val =>
      have h' : vs.find? (fun v => (mlookup v env).isNone) = some n := by
        simpa [List.find?, hm] using h
      simp only [substEnvList, hm]
      exact ih _ _ h'

/-- Claim C4 (confirmed).  When some extracted env-var name is missing
from the env-var mapping, `Template.Resolve` fails with the env-var
error naming exactly the *first* missing name in first-occurrence
(deduplicated) order — `List.find?` over `ExtractEnvVars` — and, since
the conclusion holds for every `t.pathVars`, no path-variable check or
substitution influences the outcome: env failure is fail-fast on a
single name, unlike the batched path-variable error. -/
theorem claim_C4 (t : Template) (n : List Char)
    (h : (Template.ExtractEnvVars t).find? (fun v => (mlookup v t.envVars).isNone) = some n) :
    Template.Resolve t = .error (.envVarNotFound n) := by
  unfold Template.Resolve
  rw [substEnvList_err t.envVars _ _ _ h]

/-- Witness for C4: template `${A}/{id}` with no env values but a full
path-var mapping still fails with the env-var error for `A`. -/
theorem claim_C4_witness :
    Template.Resolve ⟨lchars ("${A}/{id}"), [(lchars ("id"), lchars ("1"))], []⟩
      = .error (.envVarNotFound (lchars ("A"))) :=
  claim_C4 ⟨lchars ("${A}/{id}"), [(lchars ("id"), lchars ("1"))], []⟩ (lchars ("A")) (by decide)

/-- Claim C6 (confirmed).  `AuthPreset.Apply` dispatches on
`strings.ToLower` of the `Type` field: any casing of `bearer` with a
non-empty token sets `Authorization` to exactly `Bearer <token>`, and a
type that lowers to none of `basic`/`bearer`/`custom` yields the
unknown-type error naming the original type string. -/
theorem claim_C6 (p q : AuthPreset) (r r' : HttpRequest)
    (hp : toLowerStr p.«Type» = lchars ("bearer")) (ht : p.Token ≠ [])
    (hq1 : toLowerStr q.«Type» ≠ lchars ("basic"))
    (hq2 : toLowerStr q.«Type» ≠ lchars ("bearer"))
    (hq3 : toLowerStr q.«Type» ≠ lchars ("custom")) :
    p.Apply r = .ok { r with headers := hSet (lchars ("Authorization")) (lchars ("Bearer ") ++ p.Token) r.headers } ∧
    q.Apply r' = .error (.unknownAuthType q.«Type») := by
  constructor
  · unfold AuthPreset.Apply AuthPreset.applyBearer
    rw [hp]
    simp +decide [ht]
  · unfold AuthPreset.Apply
    rw [if_neg hq1, if_neg hq2, if_neg hq3]

/-- Witness for C6: an uppercase `BEARER` preset with token `xyz`, and
a `digest` preset hitting the unknown-type error. -/
theorem claim_C6_witness :
    (⟨[], lchars ("BEARER"), [], [], lchars ("xyz"), [], [], [], []⟩ : AuthPreset).Apply
        ⟨lchars ("GET"), [], [], none⟩
      = .ok { (⟨lchars ("GET"), [], [], none⟩ : HttpRequest) with
              headers := hSet (lchars ("Authorization"))
                (lchars ("Bearer ") ++ (⟨[], lchars ("BEARER"), [], [], lchars ("xyz"), [], [], [], []⟩ : AuthPreset).Token) [] } ∧
    (⟨[], lchars ("digest"), [], [], [], [], [], [], []⟩ : AuthPreset).Apply
        ⟨lchars ("GET"), [], [], none⟩
      = .error (.unknownAuthType (lchars ("digest"))) :=
  claim_C6 ⟨[], lchars ("BEARER"), [], [], lchars ("xyz"), [], [], [], []⟩
    ⟨[], lchars ("digest"), [], [], [], [], [], [], []⟩
    ⟨lchars ("GET"), [], [], none⟩ ⟨lchars ("GET"), [], [], none⟩
    (by decide) (by decide) (by decide) (by decide) (by decide)

/-- Claim C7 (confirmed).  A basic-type preset with non-empty username
sets `Authorization` to `Basic ` followed by the standard base64 of
`username:password` (empty password allowed); with an empty username it
errors; and the concrete pair john/secret123 yields exactly
`Basic am9objpzZWNyZXQxMjM=`. -/
theorem claim_C7 (p q : AuthPreset) (r r' : HttpRequest)
    (hp : toLowerStr p.«Type» = lchars ("basic")) (hu : p.Username ≠ [])
    (hq : toLowerStr q.«Type» = lchars ("basic")) (hqu : q.Username = []) :
    p.Apply r = .ok { r with headers := hSet (lchars ("Authorization")) (lchars ("Basic ") ++ base64Encode (strBytes (p.Username ++ ':' :: p.Password))) r.headers } ∧
    q.Apply r' = .error .basicRequiresUsername ∧
    base64Encode (strBytes (lchars ("john:secret123"))) = lchars ("am9objpzZWNyZXQxMjM=") := by
  refine ⟨?_, ?_, by decide⟩
  · unfold AuthPreset.Apply AuthPreset.applyBasic
    rw [hp]
    simp +decide [hu]
  · unfold AuthPreset.Apply AuthPreset.applyBasic
    rw [hq]
    simp +decide [hqu]

/-- Witness for C7: the john/secret123 preset, and a basic preset with
an empty username. -/
theorem claim_C7_witness :
    (⟨[], lchars ("basic"), lchars ("john"), lchars ("secret123"), [], [], [], [], []⟩ : AuthPreset).Apply
        ⟨lchars ("GET"), [], [], none⟩
      = .ok { (⟨lchars ("GET"), [], [], none⟩ : HttpRequest) with
              headers := hSet (lchars ("Authorization"))
                (lchars ("Basic ") ++ base64Encode (strBytes (lchars ("john") ++ ':' :: lchars ("secret123")))) [] } ∧
    (⟨[], lchars ("basic"), [], [], [], [], [], [], []⟩ : AuthPreset).Apply ⟨lchars ("GET"), [], [], none⟩
      = .error .basicRequiresUsername ∧
    base64Encode (strBytes (lchars ("john:secret123"))) = lchars ("am9objpzZWNyZXQxMjM=") :=
  claim_C7 ⟨[], lchars ("basic"), lchars ("john"), lchars ("secret123"), [], [], [], [], []⟩
    ⟨[], lchars ("basic"), [], [], [], [], [], [], []⟩
    ⟨lchars ("GET"), [], [], none⟩ ⟨lchars ("GET"), [], [], none⟩
    (by decide) (by decide) (by decide) (by decide)

theorem foldHeaders_body (hs : List (List Char × List Char)) :
    ∀ (r0 : HttpRequest),
      (hs.foldl (fun r kv => { r with headers := hSet kv.1 kv.2 r.headers }) r0).body = r0.body := by
  induction hs with
  | nil => intro r0; rfl
  | cons kv rest ih => intro r0; simp only [List.foldl]; rw [ih]

theorem apply_body (p : AuthPreset) (r r' : HttpRequest) (h : p.Apply r = .ok r') :
    r'.body = r.body := by
  unfold AuthPreset.Apply AuthPreset.applyBasic AuthPreset.applyBearer AuthPreset.applyCustom at h
  repeat' split at h
  all_goals simp_all
  all_goals subst h
  all_goals rfl

/-- Claim C5 (confirmed).  Whenever `Builder.Build` succeeds, the
transport request carries no body reader at all (`none`) when the
`Request` body string is empty, and a reader over exactly the body
string otherwise — an empty string is never represented as a
zero-length body object (`some []`). -/
theorem claim_C5 (urlResolve : List Char → List (List Char × List Char) → Option (List Char))
    (b : Builder) (r : HttpRequest) (hok : b.Build urlResolve = .ok r) :
    (b.req.Body = [] → r.body = none) ∧ (b.req.Body ≠ [] → r.body = some b.req.Body) := by
  unfold Builder.Build at hok
  cases hu : urlResolve b.req.URL b.req.QueryParams with
  | none => rw [hu] at hok; cases hok
  | some ustr =>
    rw [hu] at hok
    simp only at hok
    have hbody : r.body = if b.req.Body ≠ [] then some b.req.Body else none := by
      cases ha : b.req.Auth with
      | none =>
        rw [ha] at hok
        dsimp only at hok
        cases hok
        rw [foldHeaders_body]
      | some p =>
        rw [ha] at hok
        dsimp only at hok
        cases happ : p.Apply (b.req.Headers.foldl
            (fun r kv => { r with headers := hSet kv.1 kv.2 r.headers })
            { method := b.req.Method, url := ustr, headers := [],
              body := if b.req.Body ≠ [] then some b.req.Body else none }) with
        | ok r₂ =>
          rw [happ] at hok
          cases hok
          rw [apply_body p _ _ happ, foldHeaders_body]
        | error e => rw [happ] at hok; cases hok
    constructor
    · intro hB
      rw [hbody, if_neg (by simp [hB])]
    · intro hB
      rw [hbody, if_pos hB]

/-- Witness for C5: an identity URL resolver, a GET with empty body
(`none` in the result) and the same GET with body `hi`. -/
theorem claim_C5_witness :
    ((⟨⟨lchars ("GET"), lchars ("http://x"), [], [], [], none⟩⟩ : Builder).req.Body = [] →
      (⟨lchars ("GET"), lchars ("http://x"), [], none⟩ : HttpRequest).body = none) ∧
    ((⟨⟨lchars ("GET"), lchars ("http://x"), [], [], [], none⟩⟩ : Builder).req.Body ≠ [] →
      (⟨lchars ("GET"), lchars ("http://x"), [], none⟩ : HttpRequest).body
        = some (⟨⟨lchars ("GET"), lchars ("http://x"), [], [], [], none⟩⟩ : Builder).req.Body) :=
  claim_C5 (fun u _ => some u)
    ⟨⟨lchars ("GET"), lchars ("http://x"), [], [], [], none⟩⟩
    ⟨lchars ("GET"), lchars ("http://x"), [], none⟩ (by decide)

/-- Claim C10 (confirmed).  The recall sub-parser never rejects an
unrecognized token: any argument that does not start with `-H`, is
neither `--env` nor `--env=…`, and contains no `=` is silently dropped —
the parse continues exactly as if the token were absent, and with such a
token as the only extra argument `parseRecall` succeeds with the bare
options (the token appears nowhere in them) — in contrast to the request
sub-parser's hard unexpected-argument error. -/
theorem claim_C10 (t nm c₀ : List Char) (rest : List (List Char)) (opts : RecallOptions)
    (h1 : hasPre (lchars ("-H")) t = false)
    (h2 : hasPre (lchars ("--env=")) t = false)
    (h3 : t ≠ lchars ("--env"))
    (h4 : containsSub (lchars ("=")) t = false) :
    parseRecallArgs opts (t :: rest) = parseRecallArgs opts rest ∧
    Parser.parseRecall ⟨[c₀, nm, t]⟩ = .ok ⟨nm, [], [], []⟩ := by
  have hstep : ∀ (o : RecallOptions) (rs : List (List Char)),
      parseRecallArgs o (t :: rs) = parseRecallArgs o rs := by
    intro o rs
    conv_lhs => rw [parseRecallArgs.eq_def]
    simp [h1, h2, h3, h4]
  refine ⟨hstep opts rest, ?_⟩
  unfold Parser.parseRecall
  dsimp only
  rw [hstep]
  rfl

/-- Witness for C10: the stray token `--verbose` after
`recall nm` is dropped and parsing succeeds. -/
theorem claim_C10_witness :
    parseRecallArgs ⟨lchars ("nm"), [], [], []⟩ [lchars ("--verbose")]
      = parseRecallArgs ⟨lchars ("nm"), [], [], []⟩ [] ∧
    Parser.parseRecall ⟨[lchars ("recall"), lchars ("nm"), lchars ("--verbose")]⟩
      = .ok ⟨lchars ("nm"), [], [], []⟩ :=
  claim_C10 (lchars ("--verbose")) (lchars ("nm")) (lchars ("recall")) []
    ⟨lchars ("nm"), [], [], []⟩ (by decide) (by decide) (by decide) (by decide)

theorem parseRequest_cons (m u : List Char) (args : List (List Char))
    (hm : validMethod (toUpperStr m) = true) :
    Parser.parseRequest ⟨m :: u :: args⟩ = parseReqArgs (initRequest (toUpperStr m) u) args := by
  unfold Parser.parseRequest
  dsimp only
  rw [if_pos hm]

/-- Claim C2 (corrected).  The value-taking long flags `--env`,
`--format` and `--auth` accept both the inline `--flag=value` form and
the following-argument form, and `--save` accepts the following-argument
form; but — correcting the claim — `--save=NAME` is *not* recognised:
parser.go has no `--save=` prefix case, so the token falls through to
the positional classifier, which (when the token contains no `==`)
rejects it as an unexpected argument. -/
theorem claim_C2 (m u n v : List Char) (hm : validMethod (toUpperStr m) = true) :
    Parser.parseRequest ⟨[m, u, lchars ("--save"), n]⟩
      = .ok { initRequest (toUpperStr m) u with Save := n } ∧
    (containsSub (lchars ("==")) (lchars ("--save=") ++ n) = false →
      Parser.parseRequest ⟨[m, u, lchars ("--save=") ++ n]⟩
        = .error (.unexpectedArgument (lchars ("--save=") ++ n))) ∧
    Parser.parseRequest ⟨[m, u, lchars ("--env=") ++ v]⟩
      = .ok { initRequest (toUpperStr m) u with Env := v } ∧
    Parser.parseRequest ⟨[m, u, lchars ("--env"), v]⟩
      = .ok { initRequest (toUpperStr m) u with Env := v } ∧
    Parser.parseRequest ⟨[m, u, lchars ("--format=") ++ v]⟩
      = .ok { initRequest (toUpperStr m) u with Format := v } ∧
    Parser.parseRequest ⟨[m, u, lchars ("--format"), v]⟩
      = .ok { initRequest (toUpperStr m) u with Format := v } ∧
    Parser.parseRequest ⟨[m, u, lchars ("--auth=") ++ v]⟩
      = .ok { initRequest (toUpperStr m) u with Auth := v } ∧
    Parser.parseRequest ⟨[m, u, lchars ("--auth"), v]⟩
      = .ok { initRequest (toUpperStr m) u with Auth := v } := by
  refine ⟨?_, ?_, ?_, ?_, ?_, ?_, ?_, ?_⟩
  · rw [parseRequest_cons m u _ hm]
    simp +decide [parseReqArgs]
  · intro hni
    rw [parseRequest_cons m u _ hm]
    rw [lch_saveEq] at hni ⊢
    simp only [List.cons_append, List.nil_append] at hni ⊢
    simp +decide [parseReqArgs, hasPre, lch_save, lch_dry, lch_info, lch_noint, lch_envEq,
      lch_env, lch_formatEq, lch_format, lch_authEq, lch_auth, lch_H, lch_d, lch_dash, hni]
  · rw [parseRequest_cons m u _ hm]
    rw [lch_envEq]
    simp +decide [parseReqArgs, hasPre, trimPre, lch_save, lch_dry, lch_info, lch_noint,
      lch_envEq, List.drop]
  · rw [parseRequest_cons m u _ hm]
    simp +decide [parseReqArgs]
  · rw [parseRequest_cons m u _ hm]
    rw [lch_formatEq]
    simp +decide [parseReqArgs, hasPre, trimPre, lch_save, lch_dry, lch_info, lch_noint,
      lch_envEq, lch_env, lch_formatEq, List.drop]
  · rw [parseRequest_cons m u _ hm]
    simp +decide [parseReqArgs]
  · rw [parseRequest_cons m u _ hm]
    rw [lch_authEq]
    simp +decide [parseReqArgs, hasPre, trimPre, lch_save, lch_dry, lch_info, lch_noint,
      lch_envEq, lch_env, lch_formatEq, lch_format, lch_authEq, List.drop]
  · rw [parseRequest_cons m u _ hm]
    simp +decide [parseReqArgs]

/-- Counterexample for C2 as stated: the inline form `--save=foo` after
a valid method and URL is a hard parse error, not a request with
`Save = foo`. -/
theorem claim_C2_counterexample :
    Parser.parseRequest ⟨[lchars ("get"), lchars ("http://x"), lchars ("--save=foo")]⟩
      = .error (.unexpectedArgument (lchars ("--save=foo"))) := by
  decide

/-- Witness for C2: `get` requests exercising every conjunct at
concrete flag values. -/
theorem claim_C2_witness :
    Parser.parseRequest ⟨[lchars ("get"), lchars ("u"), lchars ("--save"), lchars ("nm")]⟩
      = .ok { initRequest (toUpperStr (lchars ("get"))) (lchars ("u")) with Save := lchars ("nm") } ∧
    Parser.parseRequest ⟨[lchars ("get"), lchars ("u"), lchars ("--save=") ++ lchars ("nm")]⟩
      = .error (.unexpectedArgument (lchars ("--save=") ++ lchars ("nm"))) ∧
    Parser.parseRequest ⟨[lchars ("get"), lchars ("u"), lchars ("--env=") ++ lchars ("prod")]⟩
      = .ok { initRequest (toUpperStr (lchars ("get"))) (lchars ("u")) with Env := lchars ("prod") } ∧
    Parser.parseRequest ⟨[lchars ("get"), lchars ("u"), lchars ("--env"), lchars ("prod")]⟩
      = .ok { initRequest (toUpperStr (lchars ("get"))) (lchars ("u")) with Env := lchars ("prod") } ∧
    Parser.parseRequest ⟨[lchars ("get"), lchars ("u"), lchars ("--format=") ++ lchars ("prod")]⟩
      = .ok { initRequest (toUpperStr (lchars ("get"))) (lchars ("u")) with Format := lchars ("prod") } ∧
    Parser.parseRequest ⟨[lchars ("get"), lchars ("u"), lchars ("--format"), lchars ("prod")]⟩
      = .ok { initRequest (toUpperStr (lchars ("get"))) (lchars ("u")) with Format := lchars ("prod") } ∧
    Parser.parseRequest ⟨[lchars ("get"), lchars ("u"), lchars ("--auth=") ++ lchars ("prod")]⟩
      = .ok { initRequest (toUpperStr (lchars ("get"))) (lchars ("u")) with Auth := lchars ("prod") } ∧
    Parser.parseRequest ⟨[lchars ("get"), lchars ("u"), lchars ("--auth"), lchars ("prod")]⟩
      = .ok { initRequest (toUpperStr (lchars ("get"))) (lchars ("u")) with Auth := lchars ("prod") } := by
  have h := claim_C2 (lchars ("get")) (lchars ("u")) (lchars ("nm")) (lchars ("prod")) (by decide)
  exact ⟨h.1, h.2.1 (by decide), h.2.2.1, h.2.2.2.1, h.2.2.2.2.1, h.2.2.2.2.2.1,
    h.2.2.2.2.2.2.1, h.2.2.2.2.2.2.2⟩

/-- Claim C8 (confirmed).  A request-line token matching none of the
flag shapes is classified exactly as the claim says: with `==` it is
split on the first occurrence into the query parameters (path
parameters stay empty); with `=` but no `==` and no leading `-` it is
split on the first `=` into the path parameters; otherwise it is the
hard unexpected-argument error. -/
theorem claim_C8 (m u t : List Char) (hm : validMethod (toUpperStr m) = true)
    (g1 : t ≠ lchars ("--save")) (g2 : t ≠ lchars ("--dry")) (g3 : t ≠ lchars ("--info"))
    (g4 : t ≠ lchars ("--no-interactive")) (g5 : hasPre (lchars ("--env=")) t = false)
    (g6 : t ≠ lchars ("--env")) (g7 : hasPre (lchars ("--format=")) t = false)
    (g8 : t ≠ lchars ("--format")) (g9 : hasPre (lchars ("--auth=")) t = false)
    (g10 : t ≠ lchars ("--auth")) (g11 : hasPre (lchars ("-H")) t = false)
    (g12 : hasPre (lchars ("-d")) t = false) :
    (∀ a b₂, splitOnFirst (lchars ("==")) t = some (a, b₂) →
      Parser.parseRequest ⟨[m, u, t]⟩
        = .ok { initRequest (toUpperStr m) u with QueryParams := [(a, b₂)] }) ∧
    (containsSub (lchars ("==")) t = false →
      ∀ a b₂, splitOnFirst (lchars ("=")) t = some (a, b₂) → hasPre (lchars ("-")) t = false →
      Parser.parseRequest ⟨[m, u, t]⟩
        = .ok { initRequest (toUpperStr m) u with PathParams := [(a, b₂)] }) ∧
    (containsSub (lchars ("==")) t = false →
      (containsSub (lchars ("=")) t = false ∨ hasPre (lchars ("-")) t = true) →
      Parser.parseRequest ⟨[m, u, t]⟩ = .error (.unexpectedArgument t)) := by
  refine ⟨?_, ?_, ?_⟩
  · intro a b₂ hsp
    rw [parseRequest_cons m u _ hm]
    have hc : containsSub (lchars ("==")) t = true := by simp [containsSub, hsp]
    simp [parseReqArgs, g1, g2, g3, g4, g5, g6, g7, g8, g9, g10, g11, g12,
      hc, goSplit2, hsp, mapInsert]
  · intro hne a b₂ hsp hdash
    rw [parseRequest_cons m u _ hm]
    have hc : containsSub (lchars ("=")) t = true := by simp [containsSub, hsp]
    simp [parseReqArgs, g1, g2, g3, g4, g5, g6, g7, g8, g9, g10, g11, g12,
      hne, hc, hsp, hdash, goSplit2, mapInsert]
  · intro hne hrest
    rw [parseRequest_cons m u _ hm]
    cases hrest with
    | inl hno =>
      simp [parseReqArgs, g1, g2, g3, g4, g5, g6, g7, g8, g9, g10, g11, g12, hne, hno]
    | inr hda =>
      simp [parseReqArgs, g1, g2, g3, g4, g5, g6, g7, g8, g9, g10, g11, g12, hne, hda]

/-- Witness for C8: `limit==10` lands in query parameters, `id=5` in
path parameters, and `bogus` is rejected. -/
theorem claim_C8_witness :
    Parser.parseRequest ⟨[lchars ("get"), lchars ("u"), lchars ("limit==10")]⟩
      = .ok { initRequest (toUpperStr (lchars ("get"))) (lchars ("u")) with QueryParams := [(lchars ("limit"), lchars ("10"))] } ∧
    Parser.parseRequest ⟨[lchars ("get"), lchars ("u"), lchars ("id=5")]⟩
      = .ok { initRequest (toUpperStr (lchars ("get"))) (lchars ("u")) with PathParams := [(lchars ("id"), lchars ("5"))] } ∧
    Parser.parseRequest ⟨[lchars ("get"), lchars ("u"), lchars ("bogus")]⟩
      = .error (.unexpectedArgument (lchars ("bogus"))) := by
  refine ⟨?_, ?_, ?_⟩
  · exact (claim_C8 (lchars ("get")) (lchars ("u")) (lchars ("limit==10")) (by decide)
      (by decide) (by decide) (by decide) (by decide) (by decide) (by decide) (by decide)
      (by decide) (by decide) (by decide) (by decide) (by decide)).1
      (lchars ("limit")) (lchars ("10")) (by decide)
  · exact (claim_C8 (lchars ("get")) (lchars ("u")) (lchars ("id=5")) (by decide)
      (by decide) (by decide) (by decide) (by decide) (by decide) (by decide) (by decide)
      (by decide) (by decide) (by decide) (by decide) (by decide)).2.1
      (by decide) (lchars ("id")) (lchars ("5")) (by decide) (by decide)
  · exact (claim_C8 (lchars ("get")) (lchars ("u")) (lchars ("bogus")) (by decide)
      (by decide) (by decide) (by decide) (by decide) (by decide) (by decide) (by decide)
      (by decide) (by decide) (by decide) (by decide) (by decide)).2.2
      (by decide) (Or.inl (by decide))

theorem substEnvScan_name (env : List (List Char × List Char)) (n : List Char)
    (hn : ∀ c ∈ n, c ≠ '}') :
    ∀ (acc rest : List Char),
      substEnvScan env (some acc) (n ++ '}' :: rest)
        = substEnvScan env (some (acc ++ n)) ('}' :: rest) := by
  induction n with
  | nil => intro acc rest; simp
  | cons c n' ih =>
    intro acc rest
    have hc : c ≠ '}' := hn c (List.mem_cons_self c n')
    have hn' : ∀ x ∈ n', x ≠ '}' := fun x hx => hn x (List.mem_cons_of_mem c hx)
    have hstep : substEnvScan env (some acc) (c :: (n' ++ '}' :: rest))
        = substEnvScan env (some (acc ++ [c])) (n' ++ '}' :: rest) := by
      simp [substEnvScan, hc]
    rw [List.cons_append, hstep, ih hn' (acc ++ [c]) rest]
    simp

theorem substEnvScan_lit (env : List (List Char × List Char)) (c : Char) (rest : List Char)
    (h : c = '$' → rest.head? ≠ some '{') :
    substEnvScan env none (c :: rest) = c :: substEnvScan env none rest := by
  cases rest with
  | nil => rw [substEnvScan.eq_def]; split <;> simp_all
  | cons c2 rest2 => rw [substEnvScan.eq_def]; split <;> simp_all

theorem scanEnv_lit (c : Char) (rest : List Char)
    (h : c = '$' → rest.head? ≠ some '{') :
    scanEnv none (c :: rest) = scanEnv none rest := by
  cases rest with
  | nil => rw [scanEnv.eq_def]; split <;> simp_all
  | cons c2 rest2 => rw [scanEnv.eq_def]; split <;> simp_all

theorem substEnvScan_nomatch (env : List (List Char × List Char)) :
    ∀ (st : Option (List Char)) (s : List Char), scanEnv st s = [] →
      substEnvScan env st s
        = (match st with | none => s | some acc => '$' :: '{' :: (acc ++ s)) := by
  intro st s
  induction st, s using scanEnv.induct with
  | case1 st => intro _; cases st <;> simp [substEnvScan]
  | case2 rest ih =>
    intro hscan
    have hrest : scanEnv none rest = [] := by simpa [scanEnv] using hscan
    simp [substEnvScan, ih hrest]
  | case3 acc rest hacc ih =>
    intro hscan
    exact absurd hscan (by simp [scanEnv, hacc])
  | case4 acc c rest hc ih =>
    intro hscan
    have hrest : scanEnv (some (acc ++ [c])) rest = [] := by
      simpa [scanEnv, hc] using hscan
    have hstep : substEnvScan env (some acc) (c :: rest)
        = substEnvScan env (some (acc ++ [c])) rest := by
      simp [substEnvScan, hc]
    rw [hstep, ih hrest]
    simp
  | case5 rest' ih =>
    intro hscan
    have hrest : scanEnv (some []) rest' = [] := by simpa [scanEnv] using hscan
    have hstep : substEnvScan env none ('$' :: '{' :: rest')
        = substEnvScan env (some []) rest' := by
      simp [substEnvScan]
    rw [hstep, ih hrest]
    simp
  | case6 head rest hne ih =>
    intro hscan
    have hh : head = '$' → rest.head? ≠ some '{' := by
      intro h1 h2
      cases rest with
      | nil => simp at h2
      | cons c2 rest2 =>
        simp at h2
        exact hne rest2 h1 (by rw [h2])
    have hrest : scanEnv none rest = [] := by rw [← scanEnv_lit head rest hh]; exact hscan
    rw [substEnvScan_lit env head rest hh, ih hrest]

theorem renderChunks_txt (w : List Char) : renderChunks (w.map .txt) = w := by
  induction w with
  | nil => rfl
  | cons c w' ih => simp [renderChunks, chunkStr, ih]

theorem substChunks_txt (env : List (List Char × List Char)) (w : List Char) :
    substChunks env (w.map .txt) = w := by
  induction w with
  | nil => rfl
  | cons c w' ih => simp [substChunks, chunkSubst, ih]

theorem chunkNames_txt (w : List Char) : chunkNames (w.map .txt) = [] := by
  induction w with
  | nil => rfl
  | cons c w' ih => simp [chunkNames, ih]

theorem parseEnvScan_lit (c : Char) (rest : List Char)
    (h : c = '$' → rest.head? ≠ some '{') :
    parseEnvScan none (c :: rest) = .txt c :: parseEnvScan none rest := by
  cases rest with
  | nil => rw [parseEnvScan.eq_def]; split <;> simp_all
  | cons c2 rest2 => rw [parseEnvScan.eq_def]; split <;> simp_all

theorem parseEnvScan_spec (env : List (List Char × List Char)) :
    ∀ (st : Option (List Char)) (s : List Char),
      renderChunks (parseEnvScan st s)
        = (match st with | none => s | some acc => '$' :: '{' :: (acc ++ s)) ∧
      substEnvScan env st s = substChunks env (parseEnvScan st s) ∧
      chunkNames (parseEnvScan st s) = scanEnv st s := by
  intro st s
  induction st, s using scanEnv.induct with
  | case1 st =>
    cases st with
    | none => exact ⟨rfl, rfl, rfl⟩
    | some acc =>
      refine ⟨?_, ?_, ?_⟩
      · simp [parseEnvScan, renderChunks, chunkStr, renderChunks_txt]
      · simp [parseEnvScan, substEnvScan, substChunks, chunkSubst, substChunks_txt]
      · simp [parseEnvScan, scanEnv, chunkNames, chunkNames_txt]
  | case2 rest ih =>
    refine ⟨?_, ?_, ?_⟩
    · simp [parseEnvScan, renderChunks, chunkStr, ih.1]
    · simp [parseEnvScan, substEnvScan, substChunks, chunkSubst, ih.2.1]
    · simp [parseEnvScan, scanEnv, chunkNames, ih.2.2]
  | case3 acc rest hacc ih =>
    refine ⟨?_, ?_, ?_⟩
    · simp [parseEnvScan, hacc, renderChunks, chunkStr, ih.1]
    · simp [parseEnvScan, substEnvScan, hacc, substChunks, chunkSubst, ih.2.1]
    · simp [parseEnvScan, scanEnv, hacc, chunkNames, ih.2.2]
  | case4 acc c rest hc ih =>
    refine ⟨?_, ?_, ?_⟩
    · simp [parseEnvScan, hc, ih.1]
    · simp [parseEnvScan, substEnvScan, hc, ih.2.1]
    · simp [parseEnvScan, scanEnv, hc, ih.2.2]
  | case5 rest' ih =>
    refine ⟨?_, ?_, ?_⟩
    · simp [parseEnvScan, ih.1]
    · simp [parseEnvScan, substEnvScan, ih.2.1]
    · simp [parseEnvScan, scanEnv, ih.2.2]
  | case6 head rest hne ih =>
    have hh : head = '$' → rest.head? ≠ some '{' := by
      intro h1 h2
      cases rest with
      | nil => simp at h2
      | cons c2 rest2 =>
        simp at h2
        exact hne rest2 h1 (by rw [h2])
    refine ⟨?_, ?_, ?_⟩
    · rw [parseEnvScan_lit head rest hh]
      simp [renderChunks, chunkStr, ih.1]
    · rw [parseEnvScan_lit head rest hh, substEnvScan_lit env head rest hh]
      simp [substChunks, chunkSubst, ih.2.1]
    · rw [parseEnvScan_lit head rest hh, scanEnv_lit head rest hh]
      simp [chunkNames, ih.2.2]

/-- Claim C9 (confirmed).  For *every* input string and workspace env
mapping, `App.substituteEnvVars` is total (the Go function returns only
a string — there is no error path) and behaves per occurrence.  The
spec-side `parseEnvScan` decomposes the string into its
`\$\{([^}]+)\}` matches and all remaining characters: the first
conjunct shows the decomposition reassembles to exactly the input, the
second that its match names are exactly the ones the code's own scan
extracts, and the third that the output is the decomposition with every
bound `${NAME}` occurrence replaced by its value, every unbound
occurrence left verbatim, and everything outside the matches — stray
braces, `${}` and unterminated `${` included — copied unchanged. -/
theorem claim_C9 (env : List (List Char × List Char)) (s : List Char) :
    renderChunks (parseEnvScan none s) = s ∧
    chunkNames (parseEnvScan none s) = scanEnv none s ∧
    App.substituteEnvVars ⟨⟨env⟩⟩ s = substChunks env (parseEnvScan none s) := by
  obtain ⟨h1, h2, h3⟩ := parseEnvScan_spec env none s
  exact ⟨h1, h3, h2⟩


theorem scanPath_name (n : List Char) (hn : ∀ c ∈ n, c ≠ '}') :
    ∀ (acc rest : List Char),
      scanPath (some acc) (n ++ '}' :: rest) = scanPath (some (acc ++ n)) ('}' :: rest) := by
  induction n with
  | nil => intro acc rest; simp
  | cons c n' ih =>
    intro acc rest
    have hc : c ≠ '}' := hn c (List.mem_cons_self c n')
    have hn' : ∀ x ∈ n', x ≠ '}' := fun x hx => hn x (List.mem_cons_of_mem c hx)
    have hstep : scanPath (some acc) (c :: (n' ++ '}' :: rest))
        = scanPath (some (acc ++ [c])) (n' ++ '}' :: rest) := by
      simp [scanPath, hc]
    rw [List.cons_append, hstep, ih hn' (acc ++ [c]) rest]
    simp

theorem scanPath_render (toks : List PathTok) (hok : pathToksOk toks = true) :
    scanPath none (renderPath toks) = varNames toks := by
  induction toks with
  | nil => rfl
  | cons tk ts ih =>
    cases tk with
    | lit c =>
      simp only [pathToksOk, Bool.and_eq_true, decide_eq_true_eq] at hok
      show scanPath none (pathTokStr (.lit c) ++ renderPath ts) = varNames (.lit c :: ts)
      rw [pathTokStr, List.singleton_append]
      simp [scanPath, hok.1.1, ih hok.2, varNames]
    | pvar n =>
      simp only [pathToksOk, Bool.and_eq_true, List.all_eq_true, decide_eq_true_eq,
        Bool.not_eq_true', List.isEmpty_eq_false, braceFree] at hok
      have hnn : n ≠ [] := hok.1.1
      have hmem : ∀ x ∈ n, x ≠ '}' := fun x hx => (hok.1.2 x hx).2
      show scanPath none (pathTokStr (.pvar n) ++ renderPath ts) = varNames (.pvar n :: ts)
      rw [pathTokStr]
      simp only [List.cons_append, List.append_assoc, List.nil_append]
      have hopen : scanPath none ('{' :: (n ++ '}' :: renderPath ts))
          = scanPath (some []) (n ++ '}' :: renderPath ts) := by
        simp [scanPath]
      rw [hopen, scanPath_name n hmem [] (renderPath ts)]
      simp [scanPath, hnn, ih hok.2, varNames]

theorem varNames_toksOk (toks : List PathTok) (hok : pathToksOk toks = true) :
    ∀ x ∈ varNames toks, x ≠ [] ∧ braceFree x = true := by
  induction toks with
  | nil => intro x hx; simp [varNames] at hx
  | cons tk ts ih =>
    cases tk with
    | lit c =>
      simp only [pathToksOk, Bool.and_eq_true] at hok
      intro x hx
      exact ih hok.2 x hx
    | pvar n =>
      simp only [pathToksOk, Bool.and_eq_true, Bool.not_eq_true', List.isEmpty_eq_false] at hok
      intro x hx
      rw [varNames] at hx
      cases hx with
      | head => exact ⟨hok.1.1, hok.1.2⟩
      | tail _ hx' => exact ih hok.2 x hx'

theorem renderPath_append (a b : List PathTok) :
    renderPath (a ++ b) = renderPath a ++ renderPath b := by
  induction a with
  | nil => simp [renderPath]
  | cons tk ts ih => simp [renderPath, ih]

theorem renderPath_lits (v : List Char) : renderPath (v.map .lit) = v := by
  induction v with
  | nil => rfl
  | cons c v' ih => simp [renderPath, pathTokStr, ih]

theorem hasPre_name_false (n : List Char) :
    ∀ (m r : List Char), n ≠ m → (∀ c ∈ n, c ≠ '}') → (∀ c ∈ m, c ≠ '}') →
      hasPre (n ++ ['}']) (m ++ '}' :: r) = false := by
  induction n with
  | nil =>
    intro m r hnm _ hm
    cases m with
    | nil => exact absurd rfl hnm
    | cons b m' =>
      have hb : b ≠ '}' := hm b (List.mem_cons_self b m')
      simp [hasPre]
      exact fun h => absurd h (Ne.symm hb)
  | cons a n' ih =>
    intro m r hnm hn hm
    have ha : a ≠ '}' := hn a (List.mem_cons_self a n')
    have hn' : ∀ c ∈ n', c ≠ '}' := fun c hc => hn c (List.mem_cons_of_mem a hc)
    cases m with
    | nil => simp [hasPre, ha]
    | cons b m' =>
      have hm' : ∀ c ∈ m', c ≠ '}' := fun c hc => hm c (List.mem_cons_of_mem b hc)
      by_cases hab : a = b
      · subst hab
        have hnm' : n' ≠ m' := fun h => hnm (by rw [h])
        simp [hasPre, ih m' r hnm' hn' hm']
      · simp [hasPre, hab]

theorem replaceAll_skip (p' v : List Char) :
    ∀ (w r : List Char), (∀ c ∈ w, c ≠ '{') →
      replaceAll ('{' :: p') v (w ++ r) = w ++ replaceAll ('{' :: p') v r := by
  intro w
  induction w with
  | nil => intro r _; simp
  | cons c w' ih =>
    intro r hw
    have hc : c ≠ '{' := hw c (List.mem_cons_self c w')
    have hw' : ∀ x ∈ w', x ≠ '{' := fun x hx => hw x (List.mem_cons_of_mem c hx)
    have hnc : ¬((('{' :: p') : List Char) ≠ [] ∧ hasPre ('{' :: p') (c :: (w' ++ r)) = true) := by
      simp [hasPre]
      exact fun h => absurd h (Ne.symm hc)
    rw [List.cons_append, replaceAll_cons_neg _ _ _ _ hnc, ih r hw']
    rfl

theorem replaceAll_render (n v : List Char) (hnn : n ≠ []) (hbn : braceFree n = true) :
    ∀ (toks : List PathTok), pathToksOk toks = true →
      replaceAll ('{' :: (n ++ ['}'])) v (renderPath toks) = renderPath (substTok n v toks) := by
  have hnb : ∀ c ∈ n, c ≠ '}' := by
    intro c hc
    have := List.all_eq_true.mp hbn c hc
    simp at this
    exact this.2
  intro toks
  induction toks with
  | nil => intro _; rfl
  | cons tk ts ih =>
    intro hok
    cases tk with
    | lit c =>
      simp only [pathToksOk, Bool.and_eq_true, decide_eq_true_eq] at hok
      have hc : c ≠ '{' := hok.1.1
      show replaceAll _ v (pathTokStr (.lit c) ++ renderPath ts) = renderPath (substTok n v (.lit c :: ts))
      have hnc : ¬((('{' :: (n ++ ['}'])) : List Char) ≠ []
          ∧ hasPre ('{' :: (n ++ ['}'])) (c :: renderPath ts) = true) := by
        simp [hasPre]
        exact fun h => absurd h (Ne.symm hc)
      rw [pathTokStr, List.singleton_append, replaceAll_cons_neg _ _ _ _ hnc, ih hok.2]
      rfl
    | pvar m =>
      simp only [pathToksOk, Bool.and_eq_true, List.all_eq_true, decide_eq_true_eq,
        Bool.not_eq_true', List.isEmpty_eq_false, braceFree] at hok
      have hmb : ∀ c ∈ m, c ≠ '}' := fun c hc => (hok.1.2 c hc).2
      have hmo : ∀ c ∈ m, c ≠ '{' := fun c hc => (hok.1.2 c hc).1
      show replaceAll _ v (pathTokStr (.pvar m) ++ renderPath ts) = renderPath (substTok n v (.pvar m :: ts))
      by_cases hmn : m = n
      · subst hmn
        rw [show pathTokStr (.pvar m) ++ renderPath ts
            = '{' :: ((m ++ ['}']) ++ renderPath ts) by simp [pathTokStr]]
        rw [replaceAll_cons_pos _ v _ _ (by simp)
          (by rw [← List.cons_append]; exact hasPre_append _ _)]
        rw [show ('{' :: ((m ++ ['}']) ++ renderPath ts))
            = (('{' :: (m ++ ['}'])) ++ renderPath ts) by rw [List.cons_append]]
        rw [List.drop_left, ih hok.2]
        rw [substTok]
        simp [renderPath_append, renderPath_lits]
      · have hno : hasPre ('{' :: (n ++ ['}'])) ('{' :: (m ++ '}' :: renderPath ts)) = false := by
          simp [hasPre, hasPre_name_false n m (renderPath ts) (fun h => hmn h.symm) hnb hmb]
        rw [show pathTokStr (.pvar m) ++ renderPath ts
            = '{' :: (m ++ '}' :: renderPath ts) by simp [pathTokStr]]
        rw [replaceAll_cons_neg _ _ _ _ (by simp [hno])]
        rw [show m ++ '}' :: renderPath ts = (m ++ ['}']) ++ renderPath ts by simp]
        rw [replaceAll_skip (n ++ ['}']) v (m ++ ['}']) _
          (by intro c hc
              rcases List.mem_append.mp hc with hcm | hcb
              · exact hmo c hcm
              · simp at hcb; rw [hcb]; decide)]
        rw [ih hok.2, substTok, if_neg hmn]
        simp [renderPath, pathTokStr]

theorem pathToksOk_append (a b : List PathTok) :
    pathToksOk (a ++ b) = (pathToksOk a && pathToksOk b) := by
  induction a with
  | nil => simp [pathToksOk]
  | cons tk ts ih =>
    cases tk with
    | lit c => simp [pathToksOk, ih, Bool.and_assoc]
    | pvar n => simp [pathToksOk, ih, Bool.and_assoc]

theorem pathToksOk_lits (v : List Char) (hbv : braceFree v = true) :
    pathToksOk (v.map .lit) = true := by
  induction v with
  | nil => rfl
  | cons c v' ih =>
    rw [braceFree, List.all_cons, Bool.and_eq_true] at hbv
    rw [List.map, pathToksOk, Bool.and_eq_true]
    exact ⟨hbv.1, ih hbv.2⟩

theorem substTok_ok (n v : List Char) (hbv : braceFree v = true) :
    ∀ (toks : List PathTok), pathToksOk toks = true → pathToksOk (substTok n v toks) = true := by
  intro toks
  induction toks with
  | nil => intro _; rfl
  | cons tk ts ih =>
    intro hok
    cases tk with
    | lit c =>
      simp only [pathToksOk, Bool.and_eq_true] at hok ⊢
      exact ⟨hok.1, ih hok.2⟩
    | pvar m =>
      simp only [pathToksOk, Bool.and_eq_true] at hok
      rw [substTok]
      by_cases hmn : m = n
      · rw [if_pos hmn, pathToksOk_append, pathToksOk_lits v hbv, ih hok.2]
        rfl
      · rw [if_neg hmn]
        simp only [pathToksOk, Bool.and_eq_true]
        exact ⟨hok.1, ih hok.2⟩

theorem varNames_append (a b : List PathTok) :
    varNames (a ++ b) = varNames a ++ varNames b := by
  induction a with
  | nil => simp [varNames]
  | cons tk ts ih => cases tk <;> simp [varNames, ih]

theorem varNames_lits (v : List Char) : varNames (v.map .lit) = [] := by
  induction v with
  | nil => rfl
  | cons c v' ih => simp [varNames, ih]

theorem varNames_substTok (n v : List Char) :
    ∀ (toks : List PathTok) (x : List Char), x ∈ varNames (substTok n v toks) →
      x ∈ varNames toks ∧ x ≠ n := by
  intro toks
  induction toks with
  | nil => intro x hx; simp [substTok, varNames] at hx
  | cons tk ts ih =>
    intro x hx
    cases tk with
    | lit c =>
      rw [substTok, varNames] at hx
      exact ⟨(ih x hx).1, (ih x hx).2⟩
    | pvar m =>
      rw [substTok] at hx
      by_cases hmn : m = n
      · rw [if_pos hmn, varNames_append, varNames_lits, List.nil_append] at hx
        exact ⟨List.mem_cons_of_mem m (ih x hx).1, (ih x hx).2⟩
      · rw [if_neg hmn, varNames] at hx
        rw [varNames]
        rcases List.mem_cons.mp hx with he | hm'
        · rw [he]
          exact ⟨List.mem_cons_self m _, hmn⟩
        · exact ⟨List.mem_cons_of_mem m (ih x hm').1, (ih x hm').2⟩

theorem pathFold_render (m : List (List Char × List Char))
    (hvals : ∀ x w, mlookup x m = some w → braceFree w = true) :
    ∀ (names : List (List Char)) (toks : List PathTok),
      pathToksOk toks = true → (∀ x ∈ names, x ≠ [] ∧ braceFree x = true) →
      pathFold m names (renderPath toks) = renderPath (tokFold m names toks) ∧
      pathToksOk (tokFold m names toks) = true := by
  intro names
  induction names with
  | nil => intro toks hok _; exact ⟨rfl, hok⟩
  | cons x ns ih =>
    intro toks hok hns
    have hx := hns x (List.mem_cons_self x ns)
    have hns' : ∀ y ∈ ns, y ≠ [] ∧ braceFree y = true :=
      fun y hy => hns y (List.mem_cons_of_mem x hy)
    have hbv : braceFree ((mlookup x m).getD []) = true := by
      cases hlk : mlookup x m with
      | none => rfl
      | some w => exact hvals x w hlk
    have hsub := replaceAll_render x ((mlookup x m).getD []) hx.1 hx.2 toks hok
    have hok' := substTok_ok x ((mlookup x m).getD []) hbv toks hok
    have hfold : pathFold m (x :: ns) (renderPath toks)
        = pathFold m ns (replaceAll ('{' :: (x ++ ['}'])) ((mlookup x m).getD []) (renderPath toks)) := rfl
    rw [hfold, hsub]
    have := ih (substTok x ((mlookup x m).getD []) toks) hok' hns'
    exact ⟨this.1, this.2⟩

theorem tokFold_covers (m : List (List Char × List Char)) :
    ∀ (names : List (List Char)) (toks : List PathTok),
      (∀ x ∈ varNames toks, x ∈ names) → varNames (tokFold m names toks) = [] := by
  intro names
  induction names with
  | nil =>
    intro toks hcov
    exact List.eq_nil_iff_forall_not_mem.mpr fun x hx => List.not_mem_nil x (hcov x hx)
  | cons y ns ih =>
    intro toks hcov
    have hcov' : ∀ x ∈ varNames (substTok y ((mlookup y m).getD []) toks), x ∈ ns := by
      intro x hx
      have h := varNames_substTok y ((mlookup y m).getD []) toks x hx
      cases List.mem_cons.mp (hcov x h.1) with
      | inl he => exact absurd he h.2
      | inr hm => exact hm
    exact ih (substTok y ((mlookup y m).getD []) toks) hcov'

theorem renderPath_braceFree (toks : List PathTok) (hok : pathToksOk toks = true)
    (hnv : varNames toks = []) : braceFree (renderPath toks) = true := by
  induction toks with
  | nil => rfl
  | cons tk ts ih =>
    cases tk with
    | lit c =>
      simp only [pathToksOk, Bool.and_eq_true] at hok
      rw [varNames] at hnv
      show braceFree (pathTokStr (.lit c) ++ renderPath ts) = true
      rw [pathTokStr, List.singleton_append]
      simp only [braceFree, List.all_cons, Bool.and_eq_true]
      exact ⟨hok.1, ih hok.2 hnv⟩
    | pvar n => rw [varNames] at hnv; cases hnv

theorem dedupFirst_sub :
    ∀ (seen l : List (List Char)) (x : List Char), x ∈ dedupFirst seen l → x ∈ l := by
  intro seen l
  induction l generalizing seen with
  | nil => intro x hx; simp [dedupFirst] at hx
  | cons v vs ih =>
    intro x hx
    rw [dedupFirst] at hx
    by_cases hv : v ∈ seen
    · rw [if_pos hv] at hx
      exact List.mem_cons_of_mem v (ih seen x hx)
    · rw [if_neg hv] at hx
      cases List.mem_cons.mp hx with
      | inl he => rw [he]; exact List.mem_cons_self v vs
      | inr hm => exact List.mem_cons_of_mem v (ih (v :: seen) x hm)

theorem mem_dedupFirst :
    ∀ (seen l : List (List Char)) (x : List Char), x ∈ l → x ∉ seen → x ∈ dedupFirst seen l := by
  intro seen l
  induction l generalizing seen with
  | nil => intro x hx _; cases hx
  | cons v vs ih =>
    intro x hx hns
    rw [dedupFirst]
    by_cases hv : v ∈ seen
    · rw [if_pos hv]
      cases List.mem_cons.mp hx with
      | inl he => exact absurd (he ▸ hv) hns
      | inr hm => exact ih seen x hm hns
    · rw [if_neg hv]
      cases List.mem_cons.mp hx with
      | inl he => rw [he]; exact List.mem_cons_self v _
      | inr hm =>
        by_cases hxv : x = v
        · rw [hxv]; exact List.mem_cons_self v _
        · exact List.mem_cons_of_mem v
            (ih (v :: seen) x hm (by simp [hxv]; exact hns))

theorem filter_isNone_nil (m : List (List Char × List Char)) :
    ∀ (l : List (List Char)), (∀ x ∈ l, (mlookup x m).isSome = true) →
      (l.filter fun v => (mlookup v m).isNone) = [] := by
  intro l
  induction l with
  | nil => intro _; rfl
  | cons v vs ih =>
    intro h
    have hv := h v (List.mem_cons_self v vs)
    have hnone : (mlookup v m).isNone = false := by
      cases hlk : mlookup v m with
      | none => rw [hlk] at hv; cases hv
      | some w => rfl
    simp only [List.filter_cons, hnone]
    exact ih fun x hx => h x (List.mem_cons_of_mem v hx)

theorem mlookup_val_mem :
    ∀ (m : List (List Char × List Char)) (x w : List Char),
      mlookup x m = some w → ∃ p ∈ m, p.2 = w := by
  intro m
  induction m with
  | nil => intro x w h; cases h
  | cons kv rest ih =>
    intro x w h
    rw [mlookup] at h
    by_cases hk : kv.1 = x
    · rw [if_pos hk] at h
      injection h with h'
      exact ⟨kv, List.mem_cons_self kv rest, h'⟩
    · rw [if_neg hk] at h
      obtain ⟨p, hp, he⟩ := ih x w h
      exact ⟨p, List.mem_cons_of_mem kv hp, he⟩

/-- Claim C3 (corrected).  For a template consisting solely of literal
non-brace characters and `{name}` tokens (no `${…}` — the code's own
env-var extraction finds nothing), a path-var mapping whose key set is
exactly the extracted name set makes `Resolve` succeed; and — the
correction — when additionally every mapped *value* is brace-free, the
result contains zero `{`/`}` characters.  (Without that restriction the
claim is false: a value may itself introduce a brace, see the
counterexample.) -/
theorem claim_C3 (toks : List PathTok) (m envm : List (List Char × List Char))
    (htoks : pathToksOk toks = true)
    (henv : Template.ExtractEnvVars ⟨renderPath toks, m, envm⟩ = [])
    (hcov : ∀ x ∈ Template.ExtractPathVars ⟨renderPath toks, m, envm⟩, (mlookup x m).isSome = true)
    (_hexact : ∀ k ∈ m.map Prod.fst, k ∈ Template.ExtractPathVars ⟨renderPath toks, m, envm⟩)
    (hvals : ∀ p ∈ m, braceFree p.2 = true) :
    ∃ r, Template.Resolve ⟨renderPath toks, m, envm⟩ = .ok r ∧ braceFree r = true := by
  have hvals' : ∀ x w, mlookup x m = some w → braceFree w = true := by
    intro x w h
    obtain ⟨p, hp, he⟩ := mlookup_val_mem m x w h
    rw [← he]
    exact hvals p hp
  have hpv : Template.ExtractPathVars ⟨renderPath toks, m, envm⟩
      = dedupFirst [] (varNames toks) := by
    rw [Template.ExtractPathVars]
    dsimp only
    rw [scanPath_render toks htoks]
  have hPprops : ∀ x ∈ dedupFirst [] (varNames toks), x ≠ [] ∧ braceFree x = true := by
    intro x hx
    exact varNames_toksOk toks htoks x (dedupFirst_sub [] _ x hx)
  have hPcov : ∀ x ∈ varNames toks, x ∈ dedupFirst [] (varNames toks) :=
    fun x hx => mem_dedupFirst [] _ x hx (List.not_mem_nil x)
  have hfold := pathFold_render m hvals' (dedupFirst [] (varNames toks)) toks htoks hPprops
  have hvn : varNames (tokFold m (dedupFirst [] (varNames toks)) toks) = [] :=
    tokFold_covers m _ toks hPcov
  refine ⟨renderPath (tokFold m (dedupFirst [] (varNames toks)) toks), ?_,
    renderPath_braceFree _ hfold.2 hvn⟩
  have hcovP : ∀ x ∈ dedupFirst [] (varNames toks), (mlookup x m).isSome = true := by
    rw [← hpv]
    exact hcov
  unfold Template.Resolve
  dsimp only
  rw [henv]
  rw [show substEnvList envm [] (renderPath toks) = .ok (renderPath toks) from rfl]
  rw [hpv]
  rw [filter_isNone_nil m _ hcovP]
  dsimp only
  rw [if_neg (by simp)]
  rw [show ((dedupFirst [] (varNames toks)).foldl
      (fun res v => replaceAll ('{' :: (v ++ ['}'])) ((mlookup v m).getD []) res)
      (renderPath toks))
    = pathFold m (dedupFirst [] (varNames toks)) (renderPath toks) from rfl]
  rw [hfold.1]

/-- Counterexample for C3 as stated: the single-token template `{a}`
with the mapping `a ↦ "{"` (key set exactly the extracted set) resolves
without error, but the result is `{` — one brace character remains, so
the zero-braces conclusion fails without a brace-free restriction on the
mapped values. -/
theorem claim_C3_counterexample :
    pathToksOk [PathTok.pvar (lchars ("a"))] = true ∧
    renderPath [PathTok.pvar (lchars ("a"))] = lchars ("{a}") ∧
    Template.ExtractEnvVars ⟨lchars ("{a}"), [(lchars ("a"), ['{'])], []⟩ = [] ∧
    Template.ExtractPathVars ⟨lchars ("{a}"), [(lchars ("a"), ['{'])], []⟩ = [lchars ("a")] ∧
    Template.Resolve ⟨lchars ("{a}"), [(lchars ("a"), ['{'])], []⟩ = .ok ['{'] ∧
    braceFree ['{'] = false := by
  decide

/-- Witness for C3: the template `x{id}y` with mapping `id ↦ 1`
resolves to a brace-free string. -/
theorem claim_C3_witness :
    ∃ r, Template.Resolve
        ⟨renderPath [.lit 'x', .pvar (lchars ("id")), .lit 'y'],
          [(lchars ("id"), lchars ("1"))], []⟩ = .ok r ∧ braceFree r = true :=
  claim_C3 [.lit 'x', .pvar (lchars ("id")), .lit 'y'] [(lchars ("id"), lchars ("1"))] []
    (by decide) (by decide) (by decide) (by decide) (by decide)

end Gosh
